import Mathlib

/-!
Shallow embedding of the `Entity` registry class (src/index.ts) of the
Abourass/entity repository, together with proofs of the behavioural
properties claimed by its specification.

Modelling decisions, each mirroring the JavaScript source:

* A JS `Map` is an insertion-ordered association list.  `Map.get` returns the
  first binding of a key, `Map.set` overwrites an existing binding in place
  (keeping its position) or appends a fresh one, `Map.delete` removes the
  binding, `Map.prototype.size` is the number of bindings, and iteration
  (`keys`, `values`, `forEach`) follows insertion order.
* A JS `Symbol` is an unforgeable fresh token.  We model the symbol supply by
  a monotone counter `nextSym` carried in the registry state: `Symbol(id)`
  mints the current counter value and bumps the counter.  The only property
  the source relies on is freshness, which the counter provides.
* `undefined` results are `Option.none`; callbacks that receive a value read
  through `entityMap.get(symbol) as EntityType` receive an `Option V`, since
  the cast does not make the lookup total.
-/

/-- String identifiers (the `Identifiers` type parameter of the class). -/
abbrev Ident := String

/-- JS symbols, modelled as the values of a monotone mint counter. -/
abbrev Handle := Nat

/-- JS `Map.prototype.get`: the first binding of the key, if any. -/
def mget {α β : Type} [DecidableEq α] : List (α × β) → α → Option β
  | [], _ => none
  | p :: rest, k => if p.1 = k then some p.2 else mget rest k

/-- JS `Map.prototype.set`: overwrite an existing binding in place, else append. -/
def mset {α β : Type} [DecidableEq α] : List (α × β) → α → β → List (α × β)
  | [], k, v => [(k, v)]
  | p :: rest, k, v => if p.1 = k then (k, v) :: rest else p :: mset rest k v

/-- JS `Map.prototype.delete` (the state change): remove the binding of the key. -/
def mdel {α β : Type} [DecidableEq α] : List (α × β) → α → List (α × β)
  | [], _ => []
  | p :: rest, k => if p.1 = k then rest else p :: mdel rest k

/-- The `Entity` class state: `entityMap` is the handle table
(`Map<symbol, EntityType>`), `entitySymbols` the identifier table
(`Map<Identifiers, symbol>`), and `nextSym` the symbol mint counter. -/
structure Entity (V : Type) where
  entityMap : List (Handle × V)
  entitySymbols : List (Ident × Handle)
  nextSym : Nat
deriving DecidableEq

namespace Entity

variable {V T : Type}

/-- A freshly constructed registry with no initial entities. -/
def empty : Entity V := ⟨[], [], 0⟩

/-- Method `add(identifier, entity)`: mint `const symbol = Symbol(identifier)`, then
`entityMap.set(symbol, entity)` and `entitySymbols.set(identifier, symbol)`. -/
def add (e : Entity V) (identifier : Ident) (entity : V) : Entity V :=
  { entityMap := mset e.entityMap e.nextSym entity
    entitySymbols := mset e.entitySymbols identifier e.nextSym
    nextSym := e.nextSym + 1 }

/-- The constructor `new Entity(entities)`: `Object.entries(entities).forEach`
calling `add` on each pair in order. -/
def new (entities : List (Ident × V)) : Entity V :=
  entities.foldl (fun e pr => e.add pr.1 pr.2) empty

/-- Method `get(identifier)`: resolve identifier to symbol, then symbol to entity;
`undefined` when the identifier is unknown. -/
def get (e : Entity V) (identifier : Ident) : Option V :=
  match mget e.entitySymbols identifier with
  | some symbol => mget e.entityMap symbol
  | none => none

/-- Method `remove(identifier)`: when the identifier resolves, delete from both maps
and return `true`; otherwise return `false` and change nothing. -/
def remove (e : Entity V) (identifier : Ident) : Entity V × Bool :=
  match mget e.entitySymbols identifier with
  | some symbol =>
      ({ e with entityMap := mdel e.entityMap symbol
                entitySymbols := mdel e.entitySymbols identifier }, true)
  | none => (e, false)

/-- Method `clear()`: `entityMap.clear(); entitySymbols.clear()`. -/
def clear (e : Entity V) : Entity V :=
  { e with entityMap := [], entitySymbols := [] }

/-- Getter `size`: `this.entityMap.size`. -/
def size (e : Entity V) : Nat := e.entityMap.length

/-- Getter `length`: `this.size`. -/
def length (e : Entity V) : Nat := e.size

/-- Getter `isEmpty`: `this.entityMap.size === 0`. -/
def isEmpty (e : Entity V) : Bool := e.entityMap.length == 0

/-- Method `has(identifier)`: `this.entitySymbols.has(identifier)`. -/
def has (e : Entity V) (identifier : Ident) : Bool :=
  (mget e.entitySymbols identifier).isSome

/-- Method `getAllIdentifiers()`: `Array.from(this.entitySymbols.keys())`. -/
def getAllIdentifiers (e : Entity V) : List Ident :=
  e.entitySymbols.map Prod.fst

/-- Method `getAllSymbols()`: `Array.from(this.entityMap.keys())`. -/
def getAllSymbols (e : Entity V) : List Handle :=
  e.entityMap.map Prod.fst

/-- Method `map(callback)`: walk `entitySymbols` in order, pushing
`callback(entityMap.get(symbol), identifier, entityMap)` results. -/
def map (e : Entity V) (f : Option V → Ident → List (Handle × V) → T) : List T :=
  e.entitySymbols.map fun pr => f (mget e.entityMap pr.2) pr.1 e.entityMap

/-- Method `find(callback)`: walk `entitySymbols` in order with a mutable `result`,
overwriting `result` with `entityMap.get(symbol)` at every match; no
short-circuit, so the last match wins. -/
def find (e : Entity V) (p : Option V → Ident → List (Handle × V) → Bool) : Option V :=
  e.entitySymbols.foldl
    (fun result pr =>
      if p (mget e.entityMap pr.2) pr.1 e.entityMap then mget e.entityMap pr.2
      else result)
    none

/-- The `(identifier, value)` entries in enumeration order, as the combinators
observe them. -/
def entriesView (e : Entity V) : List (Ident × Option V) :=
  e.entitySymbols.map fun pr => (pr.1, mget e.entityMap pr.2)

/-- Default iteration `[Symbol.iterator]()`: zip `entityMap.values()` with
`entitySymbols.values()`, stopping when either is exhausted, yielding
`[entity, symbol, symbol, entityMap]` tuples. -/
def iter (e : Entity V) : List (V × Handle × Handle × List (Handle × V)) :=
  (e.entityMap.zip e.entitySymbols).map fun pr => (pr.1.2, pr.2.2, pr.2.2, e.entityMap)

/-- A public mutating operation on the registry. -/
inductive Op (V : Type) where
  | add (identifier : Ident) (entity : V)
  | remove (identifier : Ident)
  | clear
deriving DecidableEq

/-- Apply one public operation. -/
def step (e : Entity V) : Op V → Entity V
  | .add i v => e.add i v
  | .remove i => (e.remove i).1
  | .clear => e.clear

/-- Apply a sequence of public operations in order. -/
def run (e : Entity V) (ops : List (Op V)) : Entity V := ops.foldl step e

/-- Predicate `freshRun e ops` holds when every `add` in `ops` is performed with an
identifier not present at that moment (no overwriting re-add). -/
def freshRun : Entity V → List (Op V) → Bool
  | _, [] => true
  | e, op :: ops =>
    (match op with
      | .add i _ => !e.has i
      | _ => true) && freshRun (e.step op) ops

/-- The inductive well-formedness invariant of reachable registry states:
every identifier's handle resolves in the handle table, identifiers are
unique, live handles are unique, handle-table keys are unique, every handle
ever stored is below the mint counter, and the identifier table is never
larger than the handle table. -/
def WF (e : Entity V) : Prop :=
  (∀ p ∈ e.entitySymbols, (mget e.entityMap p.2).isSome) ∧
  (e.entitySymbols.map Prod.fst).Nodup ∧
  (e.entitySymbols.map Prod.snd).Nodup ∧
  (e.entityMap.map Prod.fst).Nodup ∧
  (∀ p ∈ e.entitySymbols, p.2 < e.nextSym) ∧
  (∀ p ∈ e.entityMap, p.1 < e.nextSym) ∧
  e.entitySymbols.length ≤ e.entityMap.length

/-- The two tables are aligned: the identifier table's handles, in insertion
order, are exactly the handle table's keys in insertion order.  This is the
state in which the registry's enumeration views agree with each other. -/
def Aligned (e : Entity V) : Prop :=
  e.entitySymbols.map Prod.snd = e.entityMap.map Prod.fst

end Entity

section AssocLemmas

variable {α β : Type} [DecidableEq α]

theorem mget_mset_self (l : List (α × β)) (k : α) (v : β) :
    mget (mset l k v) k = some v := by
  induction l with
  | nil => simp [mget, mset]
  | cons hd tl ih =>
    by_cases h : hd.1 = k <;> simp [mget, mset, h, ih]

theorem mget_mset_ne (l : List (α × β)) {k k' : α} (v : β) (h : k' ≠ k) :
    mget (mset l k v) k' = mget l k' := by
  induction l with
  | nil => simp [mget, mset, Ne.symm h]
  | cons hd tl ih =>
    obtain ⟨a, b⟩ := hd
    by_cases hk : a = k
    · subst hk
      simp [mget, mset, Ne.symm h]
    · by_cases hk' : a = k' <;> simp [mget, mset, hk, hk', h, ih]

theorem mset_of_absent (l : List (α × β)) {k : α} (v : β) (h : mget l k = none) :
    mset l k v = l ++ [(k, v)] := by
  induction l with
  | nil => simp [mset]
  | cons hd tl ih =>
    by_cases hk : hd.1 = k
    · simp [mget, hk] at h
    · simp [mget, hk] at h
      simp [mset, hk, ih h]

theorem mset_length_of_present (l : List (α × β)) {k : α} (v : β)
    (h : (mget l k).isSome) : (mset l k v).length = l.length := by
  induction l with
  | nil => simp [mget] at h
  | cons hd tl ih =>
    by_cases hk : hd.1 = k
    · simp [mset, hk]
    · simp [mget, hk] at h
      simp [mset, hk, ih h]

theorem mem_mset (l : List (α × β)) (k : α) (v : β) :
    ∀ p ∈ mset l k v, p ∈ l ∨ p = (k, v) := by
  induction l with
  | nil => simp [mset]
  | cons hd tl ih =>
    intro p hp
    by_cases hk : hd.1 = k
    · simp [mset, hk] at hp
      rcases hp with h | h
      · right; simp [h]
      · left; simp [h]
    · simp [mset, hk] at hp
      rcases hp with h | h
      · left; simp [h]
      · rcases ih p h with h2 | h2
        · left; simp [h2]
        · right; exact h2

theorem mget_none_iff (l : List (α × β)) (k : α) :
    mget l k = none ↔ k ∉ l.map Prod.fst := by
  induction l with
  | nil => simp [mget]
  | cons hd tl ih =>
    obtain ⟨a, b⟩ := hd
    by_cases hk : a = k
    · subst hk
      simp [mget]
    · simp [mget, hk, ih, Ne.symm hk]

theorem mget_some_mem {l : List (α × β)} {k : α} {v : β}
    (h : mget l k = some v) : (k, v) ∈ l := by
  induction l with
  | nil => simp [mget] at h
  | cons hd tl ih =>
    obtain ⟨a, b⟩ := hd
    by_cases hk : a = k
    · simp [mget, hk] at h
      simp [hk, h]
    · simp [mget, hk] at h
      exact List.mem_cons_of_mem _ (ih h)

theorem mem_nodup_mget {l : List (α × β)} {k : α} {v : β}
    (hmem : (k, v) ∈ l) (hnd : (l.map Prod.fst).Nodup) : mget l k = some v := by
  induction l with
  | nil => simp at hmem
  | cons hd tl ih =>
    simp only [List.map_cons, List.nodup_cons] at hnd
    rcases List.mem_cons.1 hmem with h | h
    · simp [mget, ← h]
    · have hk : hd.1 ≠ k := by
        intro hc
        exact hnd.1 (hc ▸ List.mem_map_of_mem Prod.fst h)
      simp [mget, hk, ih h hnd.2]

theorem mget_mdel_ne (l : List (α × β)) {k k' : α} (h : k' ≠ k) :
    mget (mdel l k) k' = mget l k' := by
  induction l with
  | nil => simp [mdel]
  | cons hd tl ih =>
    obtain ⟨a, b⟩ := hd
    by_cases hk : a = k
    · subst hk
      simp [mdel, mget, Ne.symm h]
    · by_cases hk' : a = k' <;> simp [mdel, mget, hk, hk', h, ih]

theorem mdel_sublist (l : List (α × β)) (k : α) : (mdel l k).Sublist l := by
  induction l with
  | nil => simp [mdel]
  | cons hd tl ih =>
    by_cases hk : hd.1 = k
    · simp only [mdel, hk, if_pos rfl]
      exact (List.sublist_cons_self hd tl)
    · simp only [mdel, hk, if_neg hk]
      exact ih.cons₂ hd

theorem mdel_of_absent (l : List (α × β)) {k : α} (h : mget l k = none) :
    mdel l k = l := by
  induction l with
  | nil => simp [mdel]
  | cons hd tl ih =>
    by_cases hk : hd.1 = k
    · simp [mget, hk] at h
    · simp [mget, hk] at h
      simp [mdel, hk, ih h]

theorem mdel_length_of_present (l : List (α × β)) {k : α} {v : β}
    (h : mget l k = some v) : (mdel l k).length + 1 = l.length := by
  induction l with
  | nil => simp [mget] at h
  | cons hd tl ih =>
    by_cases hk : hd.1 = k
    · simp [mdel, hk]
    · simp [mget, hk] at h
      simp [mdel, hk, ih h]

theorem mem_mdel_of_nodup {l : List (α × β)} {k : α}
    (hnd : (l.map Prod.fst).Nodup) :
    ∀ p ∈ mdel l k, p ∈ l ∧ p.1 ≠ k := by
  induction l with
  | nil => simp [mdel]
  | cons hd tl ih =>
    simp only [List.map_cons, List.nodup_cons] at hnd
    intro p hp
    by_cases hk : hd.1 = k
    · simp only [mdel, hk, if_pos rfl] at hp
      refine ⟨List.mem_cons_of_mem hd hp, ?_⟩
      intro hc
      exact hnd.1 ((hc.trans hk.symm) ▸ List.mem_map_of_mem Prod.fst hp)
    · simp only [mdel, hk, if_neg hk] at hp
      rcases List.mem_cons.1 hp with h | h
      · exact ⟨h ▸ List.mem_cons_self hd tl, h ▸ hk⟩
      · have := ih hnd.2 p h
        exact ⟨List.mem_cons_of_mem hd this.1, this.2⟩

theorem mget_mdel_self_of_nodup {l : List (α × β)} {k : α}
    (hnd : (l.map Prod.fst).Nodup) : mget (mdel l k) k = none := by
  rw [mget_none_iff]
  intro hmem
  rcases List.mem_map.1 hmem with ⟨p, hp, hpk⟩
  exact (mem_mdel_of_nodup hnd p hp).2 hpk

theorem mset_map_fst_of_present (l : List (α × β)) {k : α} (v : β)
    (h : (mget l k).isSome) : (mset l k v).map Prod.fst = l.map Prod.fst := by
  induction l with
  | nil => simp [mget] at h
  | cons hd tl ih =>
    obtain ⟨a, b⟩ := hd
    by_cases hk : a = k
    · subst hk
      simp [mset]
    · simp [mget, hk] at h
      simp [mset, hk, ih h]

theorem mset_fst_nodup (l : List (α × β)) (k : α) (v : β)
    (hnd : (l.map Prod.fst).Nodup) : ((mset l k v).map Prod.fst).Nodup := by
  cases hmk : mget l k with
  | some w =>
    rw [mset_map_fst_of_present l v (by simp [hmk])]
    exact hnd
  | none =>
    rw [mset_of_absent l v hmk]
    simp only [List.map_append, List.map_cons, List.map_nil]
    exact hnd.append (List.nodup_singleton k)
      (List.disjoint_singleton.2 ((mget_none_iff l k).1 hmk))

theorem mset_snd_nodup (l : List (α × Nat)) (k : α) {n : Nat}
    (hlt : ∀ p ∈ l, p.2 < n) (hnd : (l.map Prod.snd).Nodup) :
    ((mset l k n).map Prod.snd).Nodup := by
  induction l with
  | nil => simp [mset]
  | cons hd tl ih =>
    obtain ⟨a, b⟩ := hd
    simp only [List.map_cons, List.nodup_cons] at hnd
    by_cases hk : a = k
    · subst hk
      have hms : mset ((a, b) :: tl) a n = (a, n) :: tl := by
        simp [mset]
      rw [hms]
      simp only [List.map_cons, List.nodup_cons]
      refine ⟨?_, hnd.2⟩
      intro hmem
      rcases List.mem_map.1 hmem with ⟨p, hp, hpn⟩
      exact absurd (hlt p (List.mem_cons_of_mem _ hp)) (by simp [hpn])
    · simp only [mset, if_neg hk, List.map_cons, List.nodup_cons]
      constructor
      · intro hmem
        rcases List.mem_map.1 hmem with ⟨p, hp, hpb⟩
        rcases mem_mset tl k n p hp with hmem2 | hpe
        · exact hnd.1 (by rw [← hpb]; exact List.mem_map_of_mem Prod.snd hmem2)
        · have hb : b < n := hlt (a, b) (List.mem_cons_self _ _)
          rw [hpe] at hpb
          simp at hpb
          omega
      · exact ih (fun p hp => hlt p (List.mem_cons_of_mem _ hp)) hnd.2

theorem mget_none_of_lt {β' : Type} (l : List (Nat × β')) {n : Nat}
    (h : ∀ p ∈ l, p.1 < n) : mget l n = none := by
  rw [mget_none_iff]
  intro hmem
  rcases List.mem_map.1 hmem with ⟨p, hp, hpn⟩
  exact absurd (h p hp) (by simp [hpn])

end AssocLemmas

namespace Entity

variable {V T : Type}

theorem wf_empty : WF (empty : Entity V) := by
  simp [WF, empty]

theorem wf_add (e : Entity V) (i : Ident) (v : V) (h : WF e) : WF (e.add i v) := by
  obtain ⟨h1, h2, h3, h4, h5, h6, h7⟩ := h
  have hmap_none : mget e.entityMap e.nextSym = none := mget_none_of_lt _ h6
  refine ⟨?_, ?_, ?_, ?_, ?_, ?_, ?_⟩
  · intro p hp
    rcases mem_mset _ _ _ p hp with hmem | hpe
    · have hne : p.2 ≠ e.nextSym := Nat.ne_of_lt (h5 p hmem)
      show (mget (mset e.entityMap e.nextSym v) p.2).isSome
      rw [mget_mset_ne _ _ hne]
      exact h1 p hmem
    · show (mget (mset e.entityMap e.nextSym v) p.2).isSome
      rw [hpe]
      simp [mget_mset_self]
  · exact mset_fst_nodup _ _ _ h2
  · exact mset_snd_nodup _ _ h5 h3
  · exact mset_fst_nodup _ _ _ h4
  · intro p hp
    rcases mem_mset _ _ _ p hp with hmem | hpe
    · exact Nat.lt_succ_of_lt (h5 p hmem)
    · simp [hpe, add]
  · intro p hp
    rcases mem_mset _ _ _ p hp with hmem | hpe
    · exact Nat.lt_succ_of_lt (h6 p hmem)
    · simp [hpe, add]
  · show (mset e.entitySymbols i e.nextSym).length ≤ (mset e.entityMap e.nextSym v).length
    have hm : (mset e.entityMap e.nextSym v).length = e.entityMap.length + 1 := by
      rw [mset_of_absent _ _ hmap_none]
      simp
    cases hmi : mget e.entitySymbols i with
    | some s =>
      have hs : (mset e.entitySymbols i e.nextSym).length = e.entitySymbols.length :=
        mset_length_of_present _ _ (by simp [hmi])
      omega
    | none =>
      have hs : (mset e.entitySymbols i e.nextSym).length = e.entitySymbols.length + 1 := by
        rw [mset_of_absent _ _ hmi]
        simp
      omega

theorem wf_remove (e : Entity V) (i : Ident) (h : WF e) : WF ((e.remove i).1) := by
  obtain ⟨h1, h2, h3, h4, h5, h6, h7⟩ := h
  cases hmi : mget e.entitySymbols i with
  | none => simpa [remove, hmi] using ⟨h1, h2, h3, h4, h5, h6, h7⟩
  | some s =>
    have his_mem : (i, s) ∈ e.entitySymbols := mget_some_mem hmi
    have hs_some : (mget e.entityMap s).isSome := h1 _ his_mem
    obtain ⟨w, hw⟩ := Option.isSome_iff_exists.1 hs_some
    have hsyms : (e.remove i).1.entitySymbols = mdel e.entitySymbols i := by
      simp [remove, hmi]
    have hmapd : (e.remove i).1.entityMap = mdel e.entityMap s := by
      simp [remove, hmi]
    have hnext : (e.remove i).1.nextSym = e.nextSym := by
      simp [remove, hmi]
    rw [WF, hsyms, hmapd, hnext]
    refine ⟨?_, ?_, ?_, ?_, ?_, ?_, ?_⟩
    · intro p hp
      obtain ⟨hpmem, hpne⟩ := mem_mdel_of_nodup h2 p hp
      have hps : p.2 ≠ s := by
        intro hc
        have hpis : p = (i, s) :=
          List.inj_on_of_nodup_map h3 hpmem his_mem (by simp [hc])
        exact hpne (by rw [hpis])
      rw [mget_mdel_ne _ hps]
      exact h1 p hpmem
    · exact h2.sublist ((mdel_sublist _ _).map _)
    · exact h3.sublist ((mdel_sublist _ _).map _)
    · exact h4.sublist ((mdel_sublist _ _).map _)
    · intro p hp
      exact h5 p ((mdel_sublist _ _).subset hp)
    · intro p hp
      exact h6 p ((mdel_sublist _ _).subset hp)
    · have e1 := mdel_length_of_present e.entitySymbols hmi
      have e2 := mdel_length_of_present e.entityMap hw
      omega

theorem wf_clear (e : Entity V) : WF e.clear := by
  simp [WF, clear]

theorem wf_step (e : Entity V) (op : Op V) (h : WF e) : WF (e.step op) := by
  cases op with
  | add i v => exact wf_add e i v h
  | remove i => exact wf_remove e i h
  | clear => exact wf_clear e

theorem wf_run (ops : List (Op V)) : ∀ e : Entity V, WF e → WF (run e ops) := by
  induction ops with
  | nil => intro e h; exact h
  | cons op ops ih =>
    intro e h
    exact ih (e.step op) (wf_step e op h)

theorem wf_run_empty (ops : List (Op V)) : WF (run empty ops) :=
  wf_run ops empty wf_empty

theorem aligned_mdel :
    ∀ (ls : List (Ident × Handle)) (lm : List (Handle × V)) {i : Ident} {s : Handle},
      ls.map Prod.snd = lm.map Prod.fst → (lm.map Prod.fst).Nodup →
      mget ls i = some s →
      (mdel ls i).map Prod.snd = (mdel lm s).map Prod.fst := by
  intro ls
  induction ls with
  | nil =>
    intro lm i s _ _ hmg
    simp [mget] at hmg
  | cons hd tl ih =>
    intro lm i s heq hnd hmg
    obtain ⟨a, s'⟩ := hd
    cases lm with
    | nil => simp at heq
    | cons hm tm =>
      obtain ⟨s'', v⟩ := hm
      simp only [List.map_cons, List.cons.injEq] at heq
      obtain ⟨hss, htl⟩ := heq
      simp only [List.map_cons, List.nodup_cons] at hnd
      by_cases ha : a = i
      · have hs' : s' = s := by simpa [mget, ha] using hmg
        have h1 : mdel ((a, s') :: tl) i = tl := by simp [mdel, ha]
        have h2 : mdel ((s'', v) :: tm) s = tm := by
          simp [mdel, hs' ▸ hss.symm]
        rw [h1, h2]
        exact htl
      · have hmg' : mget tl i = some s := by simpa [mget, ha] using hmg
        have hsmem : s ∈ tm.map Prod.fst := by
          rw [← htl]
          exact List.mem_map_of_mem Prod.snd (mget_some_mem hmg')
        have hne : s'' ≠ s := by
          intro hc
          rw [hc] at hnd
          exact hnd.1 hsmem
        have h1 : mdel ((a, s') :: tl) i = (a, s') :: mdel tl i := by
          simp [mdel, ha]
        have h2 : mdel ((s'', v) :: tm) s = (s'', v) :: mdel tm s := by
          simp [mdel, hne]
        rw [h1, h2]
        simp only [List.map_cons, List.cons.injEq]
        exact ⟨hss, ih tm htl hnd.2 hmg'⟩

theorem aligned_empty : Aligned (empty : Entity V) := rfl

theorem aligned_add (e : Entity V) (i : Ident) (v : V) (hwf : WF e)
    (hal : Aligned e) (habs : e.has i = false) : Aligned (e.add i v) := by
  obtain ⟨h1, h2, h3, h4, h5, h6, h7⟩ := hwf
  have hmi : mget e.entitySymbols i = none := by
    cases hmi2 : mget e.entitySymbols i with
    | none => rfl
    | some s => simp [has, hmi2] at habs
  have hmap_none : mget e.entityMap e.nextSym = none := mget_none_of_lt _ h6
  have hal' : e.entitySymbols.map Prod.snd = e.entityMap.map Prod.fst := hal
  show (mset e.entitySymbols i e.nextSym).map Prod.snd
      = (mset e.entityMap e.nextSym v).map Prod.fst
  rw [mset_of_absent _ _ hmi, mset_of_absent _ _ hmap_none]
  simp only [List.map_append, List.map_cons, List.map_nil]
  rw [hal']

theorem aligned_remove (e : Entity V) (i : Ident) (hwf : WF e) (hal : Aligned e) :
    Aligned ((e.remove i).1) := by
  obtain ⟨h1, h2, h3, h4, h5, h6, h7⟩ := hwf
  cases hmi : mget e.entitySymbols i with
  | none => simpa [remove, hmi] using hal
  | some s =>
    have hsyms : (e.remove i).1.entitySymbols = mdel e.entitySymbols i := by
      simp [remove, hmi]
    have hmapd : (e.remove i).1.entityMap = mdel e.entityMap s := by
      simp [remove, hmi]
    show ((e.remove i).1.entitySymbols).map Prod.snd
        = ((e.remove i).1.entityMap).map Prod.fst
    rw [hsyms, hmapd]
    exact aligned_mdel _ _ hal h4 hmi

theorem aligned_freshRun (ops : List (Op V)) :
    ∀ e : Entity V, WF e → Aligned e → freshRun e ops = true →
      Aligned (run e ops) := by
  induction ops with
  | nil =>
    intro e _ hal _
    exact hal
  | cons op ops ih =>
    intro e hwf hal hfr
    cases op with
    | add i v =>
      simp only [freshRun, Bool.and_eq_true, Bool.not_eq_true'] at hfr
      exact ih _ (wf_step e _ hwf) (aligned_add e i v hwf hal hfr.1) hfr.2
    | remove i =>
      simp only [freshRun, Bool.true_and] at hfr
      exact ih _ (wf_step e _ hwf) (aligned_remove e i hwf hal) hfr
    | clear =>
      simp only [freshRun, Bool.true_and] at hfr
      exact ih _ (wf_step e _ hwf) rfl hfr

theorem nextSym_mono (ops : List (Op V)) :
    ∀ e : Entity V, e.nextSym ≤ (run e ops).nextSym := by
  induction ops with
  | nil =>
    intro e
    exact Nat.le_refl _
  | cons op ops ih =>
    intro e
    refine Nat.le_trans ?_ (ih (e.step op))
    cases op with
    | add i v => exact Nat.le_succ _
    | remove i =>
      cases hmi : mget e.entitySymbols i with
      | none => simp [step, remove, hmi]
      | some s => simp [step, remove, hmi]
    | clear => exact Nat.le_refl _

end Entity

theorem getLast?_filter {γ : Type} (q : γ → Bool) (l : List γ) :
    (l.filter q).getLast? = l.reverse.find? q := by
  rw [← List.head?_reverse, ← List.filter_reverse, List.filter_head?]

theorem find_foldl_aux {V : Type} (m : List (Handle × V))
    (p : Option V → Ident → List (Handle × V) → Bool) :
    ∀ (l : List (Ident × Handle)) (init : Option V),
      l.foldl (fun result pr =>
        if p (mget m pr.2) pr.1 m then mget m pr.2 else result) init
      = match (l.map fun pr => (pr.1, mget m pr.2)).reverse.find?
            (fun pr => p pr.2 pr.1 m) with
        | some pr => pr.2
        | none => init := by
  intro l
  induction l with
  | nil =>
    intro init
    rfl
  | cons hd tl ih =>
    intro init
    rw [List.foldl_cons, ih]
    simp only [List.map_cons, List.reverse_cons, List.find?_append]
    cases hf : (tl.map fun pr => (pr.1, mget m pr.2)).reverse.find?
        (fun pr => p pr.2 pr.1 m) with
    | some pr => simp [hf]
    | none =>
      by_cases hp : p (mget m hd.2) hd.1 m <;> simp [hf, List.find?, hp]

theorem zip_getElem? {γ δ : Type} :
    ∀ (l1 : List γ) (l2 : List δ) (k : Nat) (x : γ) (y : δ),
      l1[k]? = some x → l2[k]? = some y → (l1.zip l2)[k]? = some (x, y) := by
  intro l1
  induction l1 with
  | nil =>
    intro l2 k x y hx
    simp at hx
  | cons a l1 ih =>
    intro l2 k x y hx hy
    cases l2 with
    | nil => simp at hy
    | cons b l2 =>
      cases k with
      | zero =>
        simp at hx hy
        simp [List.zip_cons_cons, hx, hy]
      | succ k =>
        simp at hx hy
        simpa [List.zip_cons_cons] using ih l2 k x y hx hy

/-- Claim C3: `add(id, v)` followed by `get(id)` returns `v` (the most recent
value for that identifier); `get` of an identifier that is not present — never
added, or removed since its last add — returns absent (`none`), never an
error. -/
theorem add_get_roundtrip (V : Type) :
    (∀ (e : Entity V) (i : Ident) (v : V), (e.add i v).get i = some v) ∧
    (∀ (e : Entity V) (i : Ident), e.has i = false → e.get i = none) ∧
    (∀ (ops : List (Entity.Op V)) (i : Ident),
      ((Entity.run Entity.empty ops).remove i).1.get i = none) := by
  refine ⟨?_, ?_, ?_⟩
  · intro e i v
    show Entity.get _ _ = _
    simp [Entity.get, Entity.add, mget_mset_self]
  · intro e i h
    cases hmi : mget e.entitySymbols i with
    | none => simp [Entity.get, hmi]
    | some s => simp [Entity.has, hmi] at h
  · intro ops i
    obtain ⟨h1, h2, h3, h4, h5, h6, h7⟩ := Entity.wf_run_empty (V := V) ops
    cases hmi : mget (Entity.run Entity.empty ops).entitySymbols i with
    | none => simp [Entity.remove, hmi, Entity.get]
    | some s =>
      have hnone : mget (mdel (Entity.run Entity.empty ops).entitySymbols i) i = none :=
        mget_mdel_self_of_nodup h2
      simp [Entity.remove, hmi, Entity.get, hnone]

/-- Witness for C3 at a concrete input. -/
theorem add_get_roundtrip_witness :
    (Entity.empty.add "x" (1 : Nat)).get "x" = some 1 ∧
    (Entity.empty : Entity Nat).get "y" = none :=
  ⟨(add_get_roundtrip Nat).1 Entity.empty "x" 1,
   (add_get_roundtrip Nat).2.1 Entity.empty "y" (by decide)⟩

/-- Claim C7: every `add` mints a fresh handle: the counter strictly
increases on `add`, any handle minted by a later `add` (after any further
operations) differs from the one minted now, and after two `add` calls with
the same identifier the stored handle is the second mint, not equal to the
first mint. -/
theorem fresh_handles (V : Type) :
    (∀ (e : Entity V) (i : Ident) (v : V), (e.add i v).nextSym = e.nextSym + 1) ∧
    (∀ (e : Entity V) (i : Ident) (v : V) (ops : List (Entity.Op V)),
      (Entity.run (e.add i v) ops).nextSym ≠ e.nextSym) ∧
    (∀ (e : Entity V) (i i' : Ident) (v v' : V),
      mget ((e.add i v).add i' v').entitySymbols i' = some (e.nextSym + 1) ∧
      e.nextSym + 1 ≠ e.nextSym) := by
  refine ⟨fun e i v => rfl, ?_, ?_⟩
  · intro e i v ops
    have h := Entity.nextSym_mono ops (e.add i v)
    have h2 : (e.add i v).nextSym = e.nextSym + 1 := rfl
    omega
  · intro e i i' v v'
    refine ⟨?_, by omega⟩
    show mget (mset (mset e.entitySymbols i e.nextSym) i' (e.nextSym + 1)) i'
        = some (e.nextSym + 1)
    exact mget_mset_self _ _ _

/-- Claim C8: after `clear()` the size is 0 and `isEmpty` is true from any
state; `clear()` on an already-empty reachable registry is a no-op; and in
every state `isEmpty` holds exactly when `size` is 0. -/
theorem clear_spec (V : Type) :
    (∀ e : Entity V, e.clear.size = 0 ∧ e.clear.isEmpty = true) ∧
    (∀ e : Entity V, e.isEmpty = true ↔ e.size = 0) ∧
    (∀ ops : List (Entity.Op V),
      (Entity.run Entity.empty ops).isEmpty = true →
      (Entity.run Entity.empty ops).clear = Entity.run Entity.empty ops) := by
  refine ⟨?_, ?_, ?_⟩
  · intro e
    exact ⟨rfl, rfl⟩
  · intro e
    simp [Entity.isEmpty, Entity.size]
  · intro ops h
    obtain ⟨h1, h2, h3, h4, h5, h6, h7⟩ := Entity.wf_run_empty (V := V) ops
    have hmap : (Entity.run Entity.empty ops).entityMap = [] := by
      simpa [Entity.isEmpty, List.length_eq_zero] using h
    have hsyms : (Entity.run Entity.empty ops).entitySymbols = [] := by
      rw [hmap] at h7
      simp only [List.length_nil, Nat.le_zero] at h7
      exact List.length_eq_zero.1 h7
    have hcl : (Entity.run Entity.empty ops).clear
        = ⟨[], [], (Entity.run Entity.empty ops).nextSym⟩ := rfl
    rw [hcl, ← hmap, ← hsyms]

/-- Witness for C8 at a concrete input. -/
theorem clear_spec_witness :
    (Entity.run (Entity.empty : Entity Nat) []).clear = Entity.run Entity.empty [] :=
  (clear_spec Nat).2.2 [] (by decide)

/-- Claim C1 (failing input for the code): after `add("x",1); add("x",2)`
the handle table holds 2 entries — the first handle is orphaned, not
evicted — so `size` is 2 while only 1 distinct identifier was added, and the
two tables differ in cardinality. -/
theorem add_twice_leaks :
    (Entity.run (Entity.empty : Entity Nat) [.add "x" 1, .add "x" 2]).size = 2 ∧
    (Entity.run (Entity.empty : Entity Nat)
      [.add "x" 1, .add "x" 2]).getAllIdentifiers.length = 1 := by
  constructor <;> rfl

/-- Claim C9: in every reachable state, every handle stored in the identifier
table is a key of the handle table, so `get` of any identifier present in the
identifier table resolves to a stored value. -/
theorem handles_resolve (V : Type) (ops : List (Entity.Op V)) (i : Ident) (s : Handle)
    (h : mget (Entity.run Entity.empty ops).entitySymbols i = some s) :
    ∃ v : V, mget (Entity.run Entity.empty ops).entityMap s = some v ∧
      (Entity.run Entity.empty ops).get i = some v := by
  obtain ⟨h1, _, _, _, _, _, _⟩ := Entity.wf_run_empty (V := V) ops
  obtain ⟨v, hv⟩ := Option.isSome_iff_exists.1 (h1 _ (mget_some_mem h))
  exact ⟨v, hv, by simp [Entity.get, h, hv]⟩

/-- Witness for C9 at a concrete input. -/
theorem handles_resolve_witness :
    ∃ v : Nat, mget (Entity.run Entity.empty [.add "x" 7]).entityMap 0 = some v ∧
      (Entity.run Entity.empty [.add "x" 7]).get "x" = some v :=
  handles_resolve Nat [.add "x" 7] "x" 0 (by decide)

/-- Claim C10: in every reachable state the identifier table has at most as
many entries as the handle table (`getAllIdentifiers()` is never longer than
`size`), and an `add` whose identifier is already present grows the handle
table by one while the identifier table keeps its size, making the gap wider
by exactly one. -/
theorem table_cardinality_gap (V : Type) (ops : List (Entity.Op V)) :
    (Entity.run Entity.empty ops).getAllIdentifiers.length
      ≤ (Entity.run Entity.empty ops).size ∧
    (∀ (i : Ident) (v : V), (Entity.run Entity.empty ops).has i = true →
      ((Entity.run Entity.empty ops).add i v).size
          = (Entity.run Entity.empty ops).size + 1 ∧
      ((Entity.run Entity.empty ops).add i v).getAllIdentifiers.length
          = (Entity.run Entity.empty ops).getAllIdentifiers.length) := by
  obtain ⟨h1, h2, h3, h4, h5, h6, h7⟩ := Entity.wf_run_empty (V := V) ops
  constructor
  · simpa [Entity.getAllIdentifiers, Entity.size] using h7
  · intro i v hhas
    have hmap_none : mget (Entity.run Entity.empty ops).entityMap
        (Entity.run Entity.empty ops).nextSym = none := mget_none_of_lt _ h6
    constructor
    · show (mset (Entity.run Entity.empty ops).entityMap _ v).length = _ + 1
      rw [mset_of_absent _ _ hmap_none]
      simp [Entity.size]
    · have hlen : (mset (Entity.run Entity.empty ops).entitySymbols i
          (Entity.run Entity.empty ops).nextSym).length
          = (Entity.run Entity.empty ops).entitySymbols.length :=
        mset_length_of_present _ _ (by simpa [Entity.has] using hhas)
      simp [Entity.getAllIdentifiers, Entity.add, List.length_map, hlen]

/-- Witness for C10 at a concrete input. -/
theorem table_cardinality_gap_witness :
    (Entity.run (Entity.empty : Entity Nat) [.add "x" 1]).getAllIdentifiers.length
      ≤ (Entity.run (Entity.empty : Entity Nat) [.add "x" 1]).size ∧
    ((Entity.run (Entity.empty : Entity Nat) [.add "x" 1]).add "x" 2).size
      = (Entity.run (Entity.empty : Entity Nat) [.add "x" 1]).size + 1 :=
  ⟨(table_cardinality_gap Nat [.add "x" 1]).1,
   ((table_cardinality_gap Nat [.add "x" 1]).2 "x" 2 (by decide)).1⟩

/-- Claim C4: `remove` of a present identifier returns true, deletes that
identifier's handle from both tables (afterwards `has` is false, `get` is
absent, and the handle is no longer a key of the handle table), and leaves
every other identifier's binding and resolved value untouched; `remove` of an
absent identifier returns false and leaves the whole state — hence `size` —
unchanged. -/
theorem remove_spec (V : Type) (e : Entity V) (ops : List (Entity.Op V)) (i : Ident)
    (he : e = Entity.run Entity.empty ops) :
    (e.has i = false → e.remove i = (e, false)) ∧
    (∀ s, mget e.entitySymbols i = some s →
      (e.remove i).2 = true ∧
      (e.remove i).1.has i = false ∧
      (e.remove i).1.get i = none ∧
      mget (e.remove i).1.entityMap s = none ∧
      mget (e.remove i).1.entitySymbols i = none ∧
      (∀ j, j ≠ i →
        mget (e.remove i).1.entitySymbols j = mget e.entitySymbols j ∧
        (e.remove i).1.get j = e.get j)) := by
  have hwf := Entity.wf_run_empty (V := V) ops
  rw [← he] at hwf
  obtain ⟨h1, h2, h3, h4, h5, h6, h7⟩ := hwf
  constructor
  · intro hhas
    cases hmi : mget e.entitySymbols i with
    | none => simp [Entity.remove, hmi]
    | some s => simp [Entity.has, hmi] at hhas
  · intro s hmi
    have hrem1 : (e.remove i).1
        = (⟨mdel e.entityMap s, mdel e.entitySymbols i, e.nextSym⟩ : Entity V) := by
      simp [Entity.remove, hmi]
    have hrem2 : (e.remove i).2 = true := by
      simp [Entity.remove, hmi]
    have hsymsnone : mget (mdel e.entitySymbols i) i = none :=
      mget_mdel_self_of_nodup h2
    have hmapnone : mget (mdel e.entityMap s) s = none :=
      mget_mdel_self_of_nodup h4
    refine ⟨hrem2, ?_, ?_, ?_, ?_, ?_⟩
    · simp [hrem1, Entity.has, hsymsnone]
    · simp [hrem1, Entity.get, hsymsnone]
    · simp [hrem1, hmapnone]
    · simp [hrem1, hsymsnone]
    · intro j hj
      have hsymj : mget (mdel e.entitySymbols i) j = mget e.entitySymbols j :=
        mget_mdel_ne _ hj
      refine ⟨by simp [hrem1, hsymj], ?_⟩
      cases hmj : mget e.entitySymbols j with
      | none => simp [hrem1, Entity.get, hsymj, hmj]
      | some t =>
        have htne : t ≠ s := by
          intro hc
          have hpair : (j, t) = (i, s) :=
            List.inj_on_of_nodup_map h3 (mget_some_mem hmj) (mget_some_mem hmi)
              (by simp [hc])
          simp only [Prod.mk.injEq] at hpair
          exact hj hpair.1
        have hmapj : mget (mdel e.entityMap s) t = mget e.entityMap t :=
          mget_mdel_ne _ htne
        simp [hrem1, Entity.get, hsymj, hmj, hmapj]

/-- Witness for C4 at a concrete input. -/
theorem remove_spec_witness :
    ((Entity.run (Entity.empty : Entity Nat) [.add "x" 1]).remove "x").2 = true ∧
    ((Entity.run (Entity.empty : Entity Nat) [.add "x" 1]).remove "x").1.has "x"
      = false :=
  ⟨((remove_spec Nat (Entity.run Entity.empty [.add "x" 1]) [.add "x" 1] "x" rfl).2
      0 (by decide)).1,
   ((remove_spec Nat (Entity.run Entity.empty [.add "x" 1]) [.add "x" 1] "x" rfl).2
      0 (by decide)).2.1⟩

/-- Claim C5: `find` walks every entry in enumeration order without
short-circuiting and returns the stored value of the last entry satisfying
the callback — formally, the value of the last element of the filtered entry
list — or absent when no entry matches; on a registry built from
`{a: 10, b: 20}` the callback `v => v > 0` yields 20, the last match, not the
first. -/
theorem find_last_match :
    (∀ (V : Type) (e : Entity V) (p : Option V → Ident → List (Handle × V) → Bool),
      e.find p
        = ((e.entriesView.filter fun pr => p pr.2 pr.1 e.entityMap).getLast?).bind
            (fun pr => pr.2)) ∧
    (Entity.new [("a", (10 : Nat)), ("b", 20)]).find
      (fun ov _ _ => ov.elim false (fun v => decide (0 < v))) = some 20 := by
  constructor
  · intro V e p
    simp only [Entity.find]
    rw [find_foldl_aux e.entityMap p e.entitySymbols none, getLast?_filter]
    have hview : Entity.entriesView e
        = e.entitySymbols.map fun pr => (pr.1, mget e.entityMap pr.2) := rfl
    rw [hview]
    cases hf : (e.entitySymbols.map fun pr => (pr.1, mget e.entityMap pr.2)).reverse.find?
        (fun pr => p pr.2 pr.1 e.entityMap) with
    | none => simp [hf]
    | some pr => simp [hf]
  · rfl

/-- Claim C6 (counterexample): after `add("x",1); add("x",2)` the registry's
`size` is 2 but default iteration stops after 1 item (the identifier table is
exhausted first), so the iteration count differs from `size` in a reachable
state. -/
theorem iter_count_under_size :
    (Entity.run (Entity.empty : Entity Nat) [.add "x" 1, .add "x" 2]).iter.length = 1 ∧
    (Entity.run (Entity.empty : Entity Nat) [.add "x" 1, .add "x" 2]).size = 2 := by
  constructor <;> rfl

/-- Claim C6 (amended): default iteration yields 4-tuples whose second and
third components are the same handle (it is exposed twice); in every
reachable state the number of items equals the identifier table's
cardinality — never more than `size` — and equals `size` whenever no `add`
in the history re-used a then-present identifier. -/
theorem iter_spec (V : Type) (e : Entity V) (ops : List (Entity.Op V))
    (he : e = Entity.run Entity.empty ops) :
    (∀ t ∈ e.iter, t.2.1 = t.2.2.1) ∧
    e.iter.length = e.getAllIdentifiers.length ∧
    e.getAllIdentifiers.length ≤ e.size ∧
    (Entity.freshRun Entity.empty ops = true → e.iter.length = e.size) := by
  have hwf := Entity.wf_run_empty (V := V) ops
  rw [← he] at hwf
  obtain ⟨h1, h2, h3, h4, h5, h6, h7⟩ := hwf
  have hlen : e.iter.length = min e.entityMap.length e.entitySymbols.length := by
    simp [Entity.iter, List.length_zip]
  refine ⟨?_, ?_, ?_, ?_⟩
  · intro t ht
    rcases List.mem_map.1 ht with ⟨pr, _, rfl⟩
    rfl
  · rw [hlen, Nat.min_eq_right h7]
    simp [Entity.getAllIdentifiers]
  · simpa [Entity.getAllIdentifiers, Entity.size] using h7
  · intro hfr
    have hal : Entity.Aligned e := by
      rw [he]
      exact Entity.aligned_freshRun ops Entity.empty Entity.wf_empty
        Entity.aligned_empty hfr
    have hleq : e.entitySymbols.length = e.entityMap.length := by
      have hmaps := congrArg List.length hal
      simpa using hmaps
    rw [hlen, Entity.size, Nat.min_eq_right h7, hleq]

/-- Witness for the amended C6 at a concrete input. -/
theorem iter_spec_witness :
    (Entity.run (Entity.empty : Entity Nat) [.add "x" 1]).iter.length
      = (Entity.run (Entity.empty : Entity Nat) [.add "x" 1]).size :=
  (iter_spec Nat (Entity.run Entity.empty [.add "x" 1]) [.add "x" 1] rfl).2.2.2
    (by decide)

/-- Claim C2 (counterexample): after `add("x",1); add("x",2)` — a reachable
state — the identifier at index 0 is `"x"`, whose binding is handle 1, yet
`getAllSymbols()[0]` is the orphaned handle 0: index 0 of the identifier view
and index 0 of the handle view denote different logical entries, so the views
do not agree on every reachable state. -/
theorem views_disagree :
    (Entity.run (Entity.empty : Entity Nat)
      [.add "x" 1, .add "x" 2]).getAllIdentifiers = ["x"] ∧
    (Entity.run (Entity.empty : Entity Nat)
      [.add "x" 1, .add "x" 2]).getAllSymbols = [0, 1] ∧
    mget (Entity.run (Entity.empty : Entity Nat)
      [.add "x" 1, .add "x" 2]).entitySymbols "x" = some 1 ∧
    (1 : Handle) ≠ 0 := by
  refine ⟨rfl, rfl, rfl, by decide⟩

/-- Claim C2 (amended): in every state reachable without re-adding a
then-present identifier, all enumeration views agree index by index: the i-th
identifier is bound to the i-th handle of `getAllSymbols()`, `get` of that
identifier yields the value stored under that handle, the i-th
default-iteration item carries exactly that value and that handle, and
`map((v,id)=>id)` lists the identifiers in the same order. -/
theorem order_agreement (V : Type) (e : Entity V) (ops : List (Entity.Op V))
    (he : e = Entity.run Entity.empty ops)
    (hfr : Entity.freshRun Entity.empty ops = true) :
    e.map (fun _ i _ => i) = e.getAllIdentifiers ∧
    e.getAllIdentifiers.length = e.getAllSymbols.length ∧
    (∀ (k : Nat) (i : Ident) (s : Handle),
      e.getAllIdentifiers[k]? = some i → e.getAllSymbols[k]? = some s →
      mget e.entitySymbols i = some s ∧
      ∃ v : V, mget e.entityMap s = some v ∧ e.get i = some v ∧
        e.iter[k]? = some (v, s, s, e.entityMap)) := by
  have hwf := Entity.wf_run_empty (V := V) ops
  rw [← he] at hwf
  obtain ⟨h1, h2, h3, h4, h5, h6, h7⟩ := hwf
  have hal : e.entitySymbols.map Prod.snd = e.entityMap.map Prod.fst := by
    rw [he]
    exact Entity.aligned_freshRun ops Entity.empty Entity.wf_empty
      Entity.aligned_empty hfr
  refine ⟨rfl, ?_, ?_⟩
  · show (e.entitySymbols.map Prod.fst).length = (e.entityMap.map Prod.fst).length
    rw [← hal]
    simp
  · intro k i s hik hsk
    have hsymk : ∃ pr, e.entitySymbols[k]? = some pr ∧ pr.1 = i := by
      rw [Entity.getAllIdentifiers, List.getElem?_map] at hik
      cases hpk : e.entitySymbols[k]? with
      | none => rw [hpk] at hik; simp at hik
      | some pr =>
        rw [hpk] at hik
        simp at hik
        exact ⟨pr, rfl, hik⟩
    have hmapk : ∃ qr, e.entityMap[k]? = some qr ∧ qr.1 = s := by
      rw [Entity.getAllSymbols, List.getElem?_map] at hsk
      cases hqk : e.entityMap[k]? with
      | none => rw [hqk] at hsk; simp at hsk
      | some qr =>
        rw [hqk] at hsk
        simp at hsk
        exact ⟨qr, rfl, hsk⟩
    obtain ⟨pr, hpk, hpi⟩ := hsymk
    obtain ⟨qr, hqk, hqs⟩ := hmapk
    have hps : pr.2 = s := by
      have hmaps := congrArg (fun l => l[k]?) hal
      simp only [List.getElem?_map, hpk, hqk] at hmaps
      simp at hmaps
      rw [hmaps, hqs]
    have hpr_eq : pr = (i, s) := by
      rw [← hpi, ← hps]
    have hqr_eq : qr = (s, qr.2) := by
      rw [← hqs]
    have hmgi : mget e.entitySymbols i = some s := by
      apply mem_nodup_mget _ h2
      rw [← hpr_eq]
      exact List.getElem?_mem hpk
    have hmgs : mget e.entityMap s = some qr.2 := by
      apply mem_nodup_mget _ h4
      rw [← hqr_eq]
      exact List.getElem?_mem hqk
    refine ⟨hmgi, qr.2, hmgs, ?_, ?_⟩
    · simp [Entity.get, hmgi, hmgs]
    · have hz : (e.entityMap.zip e.entitySymbols)[k]? = some (qr, pr) :=
        zip_getElem? _ _ k qr pr hqk hpk
      rw [Entity.iter, List.getElem?_map, hz]
      simp [hps, hqs]

/-- Witness for the amended C2 at a concrete input. -/
theorem order_agreement_witness :
    mget (Entity.run (Entity.empty : Entity Nat)
        [.add "x" 1, .add "y" 2]).entitySymbols "y" = some 1 ∧
    ∃ v : Nat, mget (Entity.run (Entity.empty : Entity Nat)
        [.add "x" 1, .add "y" 2]).entityMap 1 = some v ∧
      (Entity.run (Entity.empty : Entity Nat) [.add "x" 1, .add "y" 2]).get "y"
        = some v ∧
      (Entity.run (Entity.empty : Entity Nat) [.add "x" 1, .add "y" 2]).iter[1]?
        = some (v, 1, 1,
            (Entity.run (Entity.empty : Entity Nat) [.add "x" 1, .add "y" 2]).entityMap) :=
  (order_agreement Nat (Entity.run Entity.empty [.add "x" 1, .add "y" 2])
      [.add "x" 1, .add "y" 2] rfl (by decide)).2.2 1 "y" 1 (by decide) (by decide)

/-- Witness for C7 at a concrete input. -/
theorem fresh_handles_witness :
    (Entity.run ((Entity.empty : Entity Nat).add "x" 1) []).nextSym
      ≠ (Entity.empty : Entity Nat).nextSym :=
  (fresh_handles Nat).2.1 Entity.empty "x" 1 []
